import Mathlib

/-!
Verification of the interval algebra of `prepare_isoform_data.py`.

The Python program is shallowly embedded: Python `int` becomes `Int`,
Python strings become `String` (nucleotide sequences become `List Char`),
and the fallible parts (list indexing, `assert`, unpacking) return
`Except PyErr`.  Each definition mirrors one function or method of the
source file; line numbers in the comments refer to
`src/prepare_isoform_data.py`.
-/

/-- Runtime failures of the Python source: `IndexError` from `regions[0]`
on an empty list, `AssertionError` (with the optional message of the
`assert` statement), and `ValueError` from tuple unpacking / `int()`. -/
inductive PyErr where
  | indexError : PyErr
  | assertionError : Option String → PyErr
  | valueError : PyErr
deriving DecidableEq, Repr

/-- One `(chrom, start, end, strand)` tuple as passed to `Bed`
(lines 213-216: `(isoform.chr_, start, end, isoform.strand)`).
`start` is 1-based as in the input format; `end` is kept as-is. -/
structure Region where
  chrom : String
  start : Int
  «end» : Int
  strand : String
deriving DecidableEq, Repr

/-- The state of a fully constructed `Bed` object (class `Bed`,
lines 28-98): envelope `start`/`end`, strand, and the block lists. -/
structure Bed where
  chrom : String
  start : Int
  «end» : Int
  strand : String
  name : String
  block_count : Nat
  block_sizes : List Int
  block_starts : List Int
deriving DecidableEq, Repr

namespace Bed

/-- Model of `Bed._parse_region` (lines 70-78): seed the record from the first
region; the 1-based start is converted to 0-based (`start - 1`). -/
def parse_region (name : String) (r : Region) : Bed :=
  { chrom := r.chrom
    start := r.start - 1
    «end» := r.«end»
    strand := r.strand
    name := name
    block_count := 1
    block_sizes := [r.«end» - (r.start - 1)]
    block_starts := [0] }

/-- Model of `Bed._add_block` (lines 80-98).  `other = Bed([region])` is a raw-path
construction from a singleton list, where the strand-reversal step is a
no-op, so `other` is exactly `parse_region` with the default name `"."`.
The `assert self.strand == other.strand` (line 83) becomes the `if`. -/
def add_block (b : Bed) (r : Region) : Except PyErr Bed :=
  let other := parse_region "." r
  if b.strand = other.strand then
    let all_starts := (b.block_starts.map fun s => s + b.start) ++ [other.start]
    let new_start := if other.start < b.start then other.start else b.start
    .ok { b with
      block_count := b.block_count + other.block_count
      block_sizes := b.block_sizes ++ other.block_sizes
      start := new_start
      block_starts := all_starts.map fun s => s - new_start
      «end» := if other.«end» > b.«end» then other.«end» else b.«end» }
  else
    .error (.assertionError none)

/-- Model of `Bed._parse_regions` (lines 65-68): `regions[0]` raises `IndexError`
on an empty list; otherwise seed from the head and fold the tail in. -/
def parse_regions (name : String) : List Region → Except PyErr Bed
  | [] => .error .indexError
  | r :: rest => rest.foldlM add_block (parse_region name r)

/-- Model of `Bed.reverse_regions_if_minus_strand` (lines 57-63): reads
`regions[0][3]` (IndexError on empty) and reverses on `-` strand. -/
def reverse_regions_if_minus_strand : List Region → Except PyErr (List Region)
  | [] => .error .indexError
  | r :: rest => .ok (if r.strand = "-" then (r :: rest).reverse else r :: rest)

/-- The `for r2 in regions[1:]` sweep of `get_union_regions`
(lines 151-161), with `r1` the running candidate `(start, end)` pair
(the `_region` namedtuple is modelled as `Int × Int`). -/
def merge_loop (r1 : Int × Int) : List (Int × Int) → List (Int × Int)
  | [] => [r1]
  | r2 :: rest =>
    if r1.2 < r2.1 then r1 :: merge_loop r2 rest
    else if r1.2 < r2.2 then merge_loop (r1.1, r2.2) rest
    else merge_loop r1 rest

/-- Model of `Bed.get_union_regions` (lines 133-165).  The two `assert`s check
`len(set(...)) == 1`; a Python `set` built from a list has as many
elements as the list's `dedup`, so the check is `dedup.length = 1`
(in particular it already fails on an empty list).  Python's `sorted`
with `key=lambda r: r.start` is a stable ascending sort, modelled by
`insertionSort` on the first component. -/
def get_union_regions (regions : List Region) : Except PyErr (List Region) :=
  if (regions.map Region.chrom).dedup.length = 1 then
    if (regions.map Region.strand).dedup.length = 1 then
      match regions with
      | [] => .error .indexError
      | r0 :: _ =>
        let pairs : List (Int × Int) := regions.map fun r => (r.start, r.«end»)
        match pairs.insertionSort (fun a b => a.1 ≤ b.1) with
        | [] => .error .indexError
        | p0 :: prest =>
          .ok ((merge_loop p0 prest).map fun p =>
            { chrom := r0.chrom, start := p.1, «end» := p.2, strand := r0.strand })
    else .error (.assertionError (some "Not all regions at the same strand!"))
  else .error (.assertionError (some "Not all regions in the same chromosome!"))

/-- Model of `Bed.__init__` (lines 45-55): choose the raw or union preprocessing
of the region list, then parse the resulting regions. -/
def init (regions : List Region) (name : String) (union : Bool) :
    Except PyErr Bed := do
  let regs ←
    if union then get_union_regions regions
    else reverse_regions_if_minus_strand regions
  parse_regions name regs

end Bed

/-- The `Isoform` namedtuple (line 197). -/
structure Isoform where
  chr_ : String
  starts : List Int
  ends : List Int
  strand : String
deriving DecidableEq, Repr

/-- Python `str.split(sep)` for a one-character separator, on the
character-list model of a string: every occurrence of the separator
splits, and empty segments are kept (`"".split(c) == [""]`). -/
def split_on_char (c : Char) : List Char → List (List Char)
  | [] => [[]]
  | x :: xs =>
    match split_on_char c xs with
    | [] => [[x]]
    | seg :: rest => if x = c then [] :: seg :: rest else (x :: seg) :: rest

/-- The numeric value of a digit string, `none` if any character is not
a decimal digit. -/
def digits_val (l : List Char) : Option Nat :=
  l.foldl
    (fun acc c =>
      match acc with
      | none => none
      | some n => if c.isDigit then some (n * 10 + (c.toNat - 48)) else none)
    (some 0)

/-- Python `int(s)` on a coordinate token: an optional leading minus
sign followed by at least one decimal digit; anything else raises
`ValueError`. -/
def str_to_int (s : List Char) : Except PyErr Int :=
  match s with
  | '-' :: rest =>
    match rest, digits_val rest with
    | _ :: _, some n => .ok (-(n : Int))
    | _, _ => .error .valueError
  | _ =>
    match s, digits_val s with
    | _ :: _, some n => .ok ((n : Int))
    | _, _ => .error .valueError

/-- Model of `parse_isoform_data` (lines 200-206): split on `|` into exactly four
fields (unpacking anything else raises `ValueError`), then split the
coordinate fields on `,` and convert each token with `int`.  The input
line is modelled as its character list. -/
def parse_isoform_data (isoform_string : List Char) : Except PyErr Isoform :=
  match split_on_char '|' isoform_string with
  | [chr_, starts, ends, strand] => do
    let ss ← (split_on_char ',' starts).mapM str_to_int
    let es ← (split_on_char ',' ends).mapM str_to_int
    .ok { chr_ := String.mk chr_, starts := ss, ends := es, strand := String.mk strand }
  | _ => .error .valueError

/-- The region list built in `output_isoform_as_bed` (lines 213-216). -/
def iso_regions (iso : Isoform) : List Region :=
  (iso.starts.zip iso.ends).map fun p =>
    { chrom := iso.chr_, start := p.1, «end» := p.2, strand := iso.strand }

/-- Model of `output_isoform_as_bed` (lines 209-220): the two `assert`s, then
`Bed(regions, name=isoform_name, union=True)`. -/
def output_isoform_as_bed (iso : Isoform) (isoform_name : String) :
    Except PyErr Bed :=
  if iso.starts.length = iso.ends.length then
    if ∀ p ∈ iso.starts.zip iso.ends, p.1 ≤ p.2 then
      Bed.init (iso_regions iso) isoform_name true
    else .error (.assertionError none)
  else .error (.assertionError none)

/-- The value written to `isoforms.length.tsv` for one isoform
(line 258: `total_len = sum(isoform_bed.block_sizes)`). -/
def isoform_total_length (iso : Isoform) (isoform_name : String) :
    Except PyErr Int :=
  (output_isoform_as_bed iso isoform_name).map fun b => b.block_sizes.sum

/-- The extended sequence written to `isoforms.ext.fa` (line 269:
`fa_seq + fa_seq[:30]`); Python strings are modelled as `List Char`,
and the slice `[:30]` is `take 30`. -/
def extend_sequence (fa_seq : List Char) : List Char :=
  fa_seq ++ fa_seq.take 30

instance exceptDecidableEq {ε α : Type} [DecidableEq ε] [DecidableEq α] :
    DecidableEq (Except ε α) := fun a b =>
  match a, b with
  | .error e1, .error e2 =>
    if h : e1 = e2 then .isTrue (by rw [h])
    else .isFalse (fun hc => h (Except.error.inj hc))
  | .error _, .ok _ => .isFalse (fun hc => Except.noConfusion hc)
  | .ok _, .error _ => .isFalse (fun hc => Except.noConfusion hc)
  | .ok x, .ok y =>
    if h : x = y then .isTrue (by rw [h])
    else .isFalse (fun hc => h (Except.ok.inj hc))

/-! ### Closed form of the incremental block folding -/

/-- The 0-based absolute start of a region (`int(region[1]) - 1`). -/
def abs_start (r : Region) : Int := r.start - 1

/-- The block size contributed by one region (`end - (start - 1)`). -/
def region_size (r : Region) : Int := r.«end» - (r.start - 1)

/-- The envelope start after folding `r0 :: rest`: the running minimum of
the 0-based starts, exactly as `_add_block` lowers `self.start`. -/
def env_start (r0 : Region) (rest : List Region) : Int :=
  rest.foldl (fun m x => min m (abs_start x)) (abs_start r0)

/-- The envelope end after folding `r0 :: rest`: the running maximum of
the region ends, exactly as `_add_block` raises `self.end`. -/
def env_end (r0 : Region) (rest : List Region) : Int :=
  rest.foldl (fun m x => max m (x.«end»)) r0.«end»

/-- The state of a `Bed` object after `_parse_regions` has folded the
whole list `r0 :: rest`, in closed form. -/
def bed_closed (name : String) (r0 : Region) (rest : List Region) : Bed :=
  { chrom := r0.chrom
    start := env_start r0 rest
    «end» := env_end r0 rest
    strand := r0.strand
    name := name
    block_count := rest.length + 1
    block_sizes := (r0 :: rest).map region_size
    block_starts := (r0 :: rest).map fun r => abs_start r - env_start r0 rest }

theorem foldl_min_le_init (g : Region → Int) (l : List Region) (i : Int) :
    l.foldl (fun m x => min m (g x)) i ≤ i := by
  induction l generalizing i with
  | nil => simp
  | cons a t ih => exact le_trans (ih (min i (g a))) (min_le_left _ _)

theorem foldl_min_le_mem (g : Region → Int) (l : List Region) :
    ∀ (i : Int) (x : Region), x ∈ l → l.foldl (fun m x => min m (g x)) i ≤ g x := by
  induction l with
  | nil => intro i x hx; cases hx
  | cons a t ih =>
    intro i x hx
    rcases List.mem_cons.mp hx with h | h
    · subst h
      exact le_trans (foldl_min_le_init g t (min i (g x))) (min_le_right _ _)
    · exact ih (min i (g a)) x h

theorem foldl_min_eq_init_or_mem (g : Region → Int) (l : List Region) (i : Int) :
    l.foldl (fun m x => min m (g x)) i = i ∨
      ∃ x ∈ l, l.foldl (fun m x => min m (g x)) i = g x := by
  induction l generalizing i with
  | nil => exact Or.inl rfl
  | cons a t ih =>
    rcases ih (min i (g a)) with h | ⟨x, hx, h⟩
    · rcases min_cases i (g a) with ⟨h2, _⟩ | ⟨h2, _⟩
      · exact Or.inl (by rw [List.foldl_cons, h, h2])
      · exact Or.inr ⟨a, List.mem_cons_self a t, by rw [List.foldl_cons, h, h2]⟩
    · exact Or.inr ⟨x, List.mem_cons_of_mem _ hx, h⟩

theorem foldl_max_init_le (g : Region → Int) (l : List Region) (i : Int) :
    i ≤ l.foldl (fun m x => max m (g x)) i := by
  induction l generalizing i with
  | nil => simp
  | cons a t ih => exact le_trans (le_max_left _ _) (ih (max i (g a)))

theorem foldl_max_mem_le (g : Region → Int) (l : List Region) :
    ∀ (i : Int) (x : Region), x ∈ l → g x ≤ l.foldl (fun m x => max m (g x)) i := by
  induction l with
  | nil => intro i x hx; cases hx
  | cons a t ih =>
    intro i x hx
    rcases List.mem_cons.mp hx with h | h
    · subst h
      exact le_trans (le_max_right i (g x)) (foldl_max_init_le g t (max i (g x)))
    · exact ih (max i (g a)) x h

theorem foldl_max_eq_init_or_mem (g : Region → Int) (l : List Region) (i : Int) :
    l.foldl (fun m x => max m (g x)) i = i ∨
      ∃ x ∈ l, l.foldl (fun m x => max m (g x)) i = g x := by
  induction l generalizing i with
  | nil => exact Or.inl rfl
  | cons a t ih =>
    rcases ih (max i (g a)) with h | ⟨x, hx, h⟩
    · rcases max_cases i (g a) with ⟨h2, _⟩ | ⟨h2, _⟩
      · exact Or.inl (by rw [List.foldl_cons, h, h2])
      · exact Or.inr ⟨a, List.mem_cons_self a t, by rw [List.foldl_cons, h, h2]⟩
    · exact Or.inr ⟨x, List.mem_cons_of_mem _ hx, h⟩

theorem env_start_append (r0 : Region) (rest : List Region) (x : Region) :
    env_start r0 (rest ++ [x]) = min (env_start r0 rest) (abs_start x) := by
  simp [env_start, List.foldl_append]

theorem env_end_append (r0 : Region) (rest : List Region) (x : Region) :
    env_end r0 (rest ++ [x]) = max (env_end r0 rest) x.«end» := by
  simp [env_end, List.foldl_append]

theorem ite_lt_eq_min (a b : Int) : (if b < a then b else a) = min a b := by
  rcases lt_or_ge b a with h | h
  · rw [if_pos h, min_eq_right (le_of_lt h)]
  · rw [if_neg (not_lt.mpr h), min_eq_left h]

theorem ite_gt_eq_max (a b : Int) : (if b > a then b else a) = max a b := by
  rcases lt_or_ge a b with h | h
  · rw [if_pos h, max_eq_right (le_of_lt h)]
  · rw [if_neg (not_lt.mpr h), max_eq_left h]

/-- One `_add_block` step on the closed form appends the new region. -/
theorem add_block_closed (name : String) (r0 : Region) (mid : List Region)
    (x : Region) (hx : x.strand = r0.strand) :
    Bed.add_block (bed_closed name r0 mid) x = .ok (bed_closed name r0 (mid ++ [x])) := by
  have hmin : (if x.start - 1 < env_start r0 mid then x.start - 1 else env_start r0 mid)
      = env_start r0 (mid ++ [x]) := by
    rw [env_start_append, ite_lt_eq_min]
    rfl
  have hmax : (if x.«end» > env_end r0 mid then x.«end» else env_end r0 mid)
      = env_end r0 (mid ++ [x]) := by
    rw [env_end_append, ite_gt_eq_max]
  simp only [Bed.add_block, bed_closed, Bed.parse_region, hx]
  rw [if_pos trivial]
  congr 1
  rw [Bed.mk.injEq]
  refine ⟨rfl, ?_, ?_, rfl, rfl, ?_, ?_, ?_⟩
  · simpa [abs_start] using hmin
  · simpa using hmax
  · simp
  · simp [region_size]
  · rw [← hmin]
    simp only [List.map_append, List.map_map]
    have hsplit : r0 :: (mid ++ [x]) = (r0 :: mid) ++ [x] := rfl
    rw [hsplit, List.map_append]
    congr 1
    refine List.map_congr_left ?_
    intro r _
    simp only [Function.comp_apply]
    ring

/-- Folding a whole tail of regions over the closed form. -/
theorem foldlM_add_block (rest : List Region) :
    ∀ (mid : List Region) (r0 : Region) (name : String),
      (∀ x ∈ rest, x.strand = r0.strand) →
      rest.foldlM Bed.add_block (bed_closed name r0 mid)
        = .ok (bed_closed name r0 (mid ++ rest)) := by
  induction rest with
  | nil =>
    intro mid r0 name _
    rw [List.append_nil]
    rfl
  | cons x xs ih =>
    intro mid r0 name h
    rw [List.foldlM_cons, add_block_closed name r0 mid x (h x (List.mem_cons_self x xs))]
    have hbind : ∀ (b : Bed) (f : Bed → Except PyErr Bed),
        (Except.ok b : Except PyErr Bed) >>= f = f b := fun _ _ => rfl
    rw [hbind]
    have := ih (mid ++ [x]) r0 name (fun y hy => h y (List.mem_cons_of_mem x hy))
    rw [this, List.append_assoc]
    rfl

/-- On a non-empty, strand-consistent list, `_parse_regions` succeeds
and produces exactly the closed form. -/
theorem parse_regions_eq (name : String) (r0 : Region) (rest : List Region)
    (h : ∀ x ∈ rest, x.strand = r0.strand) :
    Bed.parse_regions name (r0 :: rest) = .ok (bed_closed name r0 rest) := by
  have h0 : Bed.parse_region name r0 = bed_closed name r0 [] := by
    simp [Bed.parse_region, bed_closed, env_start, env_end, abs_start, region_size]
  show rest.foldlM Bed.add_block (Bed.parse_region name r0) = _
  rw [h0]
  simpa using foldlM_add_block rest [] r0 name h

/-- The step `_add_block` succeeds only when the strands agree, and never changes
the accumulator's strand; its only failure is the bare assertion. -/
theorem add_block_ok (b : Bed) (r : Region) (b' : Bed)
    (h : Bed.add_block b r = .ok b') :
    r.strand = b.strand ∧ b'.strand = b.strand := by
  by_cases hs : b.strand = (Bed.parse_region "." r).strand
  · refine ⟨hs.symm, ?_⟩
    simp only [Bed.add_block, if_pos hs, Except.ok.injEq] at h
    rw [← h]
  · simp only [Bed.add_block, if_neg hs] at h
    cases h

theorem add_block_error (b : Bed) (r : Region) (e : PyErr)
    (h : Bed.add_block b r = .error e) : e = .assertionError none := by
  by_cases hs : b.strand = (Bed.parse_region "." r).strand
  · simp only [Bed.add_block, if_pos hs] at h
    cases h
  · simp only [Bed.add_block, if_neg hs, Except.error.injEq] at h
    exact h.symm

/-- A successful fold forces all folded regions to share the
accumulator's strand. -/
theorem foldlM_ok_strand (l : List Region) :
    ∀ (b b' : Bed), l.foldlM Bed.add_block b = .ok b' →
      (∀ x ∈ l, x.strand = b.strand) ∧ b'.strand = b.strand := by
  induction l with
  | nil =>
    intro b b' h
    simp only [List.foldlM_nil] at h
    cases h
    exact ⟨fun x hx => absurd hx (List.not_mem_nil x), rfl⟩
  | cons x xs ih =>
    intro b b' h
    rw [List.foldlM_cons] at h
    cases hx : Bed.add_block b x with
    | error e => rw [hx] at h; cases h
    | ok b1 =>
      rw [hx] at h
      have hbind : (Except.ok b1 : Except PyErr Bed) >>= (fun b1 => xs.foldlM Bed.add_block b1)
          = xs.foldlM Bed.add_block b1 := rfl
      rw [hbind] at h
      obtain ⟨hxs, hb'⟩ := ih b1 b' h
      obtain ⟨hxstr, hb1⟩ := add_block_ok b x b1 hx
      constructor
      · intro y hy
        rcases List.mem_cons.mp hy with h1 | h1
        · rw [h1]; exact hxstr
        · rw [hxs y h1]; exact hb1
      · rw [hb', hb1]

/-- The fold can fail only with the bare assertion error, never with an
`IndexError`. -/
theorem foldlM_ne_indexError (l : List Region) :
    ∀ (b : Bed), l.foldlM Bed.add_block b ≠ .error .indexError := by
  induction l with
  | nil => intro b h; cases h
  | cons x xs ih =>
    intro b h
    rw [List.foldlM_cons] at h
    cases hx : Bed.add_block b x with
    | error e =>
      rw [hx] at h
      have : (Except.error e : Except PyErr Bed) >>= (fun b1 => xs.foldlM Bed.add_block b1)
          = .error e := rfl
      rw [this] at h
      have := add_block_error b x e hx
      rw [this] at h
      cases h
    | ok b1 =>
      rw [hx] at h
      have hbind : (Except.ok b1 : Except PyErr Bed) >>= (fun b1 => xs.foldlM Bed.add_block b1)
          = xs.foldlM Bed.add_block b1 := rfl
      rw [hbind] at h
      exact ih b1 h

/-! ### Coverage sets and the union sweep -/

instance : IsTotal (Int × Int) (fun a b => a.1 ≤ b.1) :=
  ⟨fun a b => Int.le_total a.1 b.1⟩

instance : IsTrans (Int × Int) (fun a b => a.1 ≤ b.1) :=
  ⟨fun _ _ _ h1 h2 => le_trans h1 h2⟩

/-- Genomic positions covered by one `(start, end)` pair.  A region
`(start, end)` of the input format denotes the 1-based closed range of
positions `start .. end` (the program converts it to the 0-based
half-open range `[start-1, end)`, which contains the same positions). -/
def pair_cov (p : Int × Int) : Finset Int := Finset.Icc p.1 p.2

/-- Positions covered by a list of `(start, end)` pairs. -/
def pairs_cov : List (Int × Int) → Finset Int
  | [] => ∅
  | p :: rest => pair_cov p ∪ pairs_cov rest

/-- Genomic positions covered by a region tuple. -/
def region_cov (r : Region) : Finset Int := Finset.Icc r.start r.«end»

/-- Positions covered by a list of region tuples. -/
def regions_cov : List Region → Finset Int
  | [] => ∅
  | r :: rest => region_cov r ∪ regions_cov rest

theorem regions_cov_eq_pairs_cov (l : List Region) :
    regions_cov l = pairs_cov (l.map fun r => (r.start, r.«end»)) := by
  induction l with
  | nil => rfl
  | cons r rest ih => simp [regions_cov, pairs_cov, pair_cov, region_cov, ih]

theorem mem_pairs_cov (x : Int) :
    ∀ (l : List (Int × Int)), x ∈ pairs_cov l ↔ ∃ p ∈ l, x ∈ pair_cov p := by
  intro l
  induction l with
  | nil => simp [pairs_cov]
  | cons p rest ih => simp [pairs_cov, ih]

theorem pairs_cov_perm (l l' : List (Int × Int)) (h : l.Perm l') :
    pairs_cov l = pairs_cov l' := by
  induction h with
  | nil => rfl
  | cons a _ ih => simp [pairs_cov, ih]
  | swap a b t => simp only [pairs_cov]; rw [Finset.union_left_comm]
  | trans _ _ ih1 ih2 => exact ih1.trans ih2

theorem merge_loop_ne_nil (l : List (Int × Int)) :
    ∀ (r1 : Int × Int), Bed.merge_loop r1 l ≠ [] := by
  induction l with
  | nil => intro r1 h; cases h
  | cons r2 rest ih =>
    intro r1
    simp only [Bed.merge_loop]
    split
    · exact List.cons_ne_nil _ _
    · split
      · exact ih (r1.1, r2.2)
      · exact ih r1

/-- The sweep's first emitted interval starts where the initial
candidate starts, and its end only ever grows. -/
theorem merge_loop_shape (l : List (Int × Int)) :
    ∀ (r1 : Int × Int), ∃ e t,
      Bed.merge_loop r1 l = (r1.1, e) :: t ∧ r1.2 ≤ e := by
  induction l with
  | nil =>
    intro r1
    exact ⟨r1.2, [], by simp [Bed.merge_loop], le_refl _⟩
  | cons r2 rest ih =>
    intro r1
    simp only [Bed.merge_loop]
    by_cases h1 : r1.2 < r2.1
    · rw [if_pos h1]
      exact ⟨r1.2, Bed.merge_loop r2 rest, by simp, le_refl _⟩
    · rw [if_neg h1]
      by_cases h2 : r1.2 < r2.2
      · rw [if_pos h2]
        obtain ⟨e, t, he, hle⟩ := ih (r1.1, r2.2)
        exact ⟨e, t, he, le_trans (le_of_lt h2) hle⟩
      · rw [if_neg h2]
        exact ih r1

/-- All intervals emitted by the sweep start at or after the initial
candidate's start (the input being sorted by start). -/
theorem merge_loop_start_ge (l : List (Int × Int)) :
    ∀ (r1 : Int × Int), ((r1 :: l).Pairwise fun a b => a.1 ≤ b.1) →
      ∀ q ∈ Bed.merge_loop r1 l, r1.1 ≤ q.1 := by
  induction l with
  | nil =>
    intro r1 _ q hq
    simp only [Bed.merge_loop, List.mem_singleton] at hq
    rw [hq]
  | cons r2 rest ih =>
    intro r1 hp q hq
    have hp1 : ∀ b ∈ r2 :: rest, r1.1 ≤ b.1 := (List.pairwise_cons.mp hp).1
    have hp2 : (r2 :: rest).Pairwise fun a b => a.1 ≤ b.1 := (List.pairwise_cons.mp hp).2
    simp only [Bed.merge_loop] at hq
    by_cases h1 : r1.2 < r2.1
    · rw [if_pos h1] at hq
      rcases List.mem_cons.mp hq with h | h
      · rw [h]
      · exact le_trans (hp1 r2 (List.mem_cons_self r2 rest)) (ih r2 hp2 q h)
    · rw [if_neg h1] at hq
      have hpnew : ∀ (v : Int), (((r1.1, v) : Int × Int) :: rest).Pairwise fun a b => a.1 ≤ b.1 := by
        intro v
        rw [List.pairwise_cons]
        exact ⟨fun b hb => hp1 b (List.mem_cons_of_mem r2 hb),
          (List.pairwise_cons.mp hp2).2⟩
      by_cases h2 : r1.2 < r2.2
      · rw [if_pos h2] at hq
        exact ih (r1.1, r2.2) (hpnew r2.2) q hq
      · rw [if_neg h2] at hq
        have : (r1 :: rest).Pairwise fun a b => a.1 ≤ b.1 := by
          have := hpnew r1.2
          simpa using this
        exact ih r1 this q hq

/-- Consecutive output intervals of the sweep are strictly separated:
each emitted end is strictly below every later start. -/
theorem merge_loop_pairwise (l : List (Int × Int)) :
    ∀ (r1 : Int × Int), ((r1 :: l).Pairwise fun a b => a.1 ≤ b.1) →
      (Bed.merge_loop r1 l).Pairwise fun a b => a.2 < b.1 := by
  induction l with
  | nil =>
    intro r1 _
    simp [Bed.merge_loop]
  | cons r2 rest ih =>
    intro r1 hp
    have hp1 : ∀ b ∈ r2 :: rest, r1.1 ≤ b.1 := (List.pairwise_cons.mp hp).1
    have hp2 : (r2 :: rest).Pairwise fun a b => a.1 ≤ b.1 := (List.pairwise_cons.mp hp).2
    simp only [Bed.merge_loop]
    by_cases h1 : r1.2 < r2.1
    · rw [if_pos h1]
      rw [List.pairwise_cons]
      constructor
      · intro q hq
        exact lt_of_lt_of_le h1 (merge_loop_start_ge rest r2 hp2 q hq)
      · exact ih r2 hp2
    · rw [if_neg h1]
      have hpnew : ∀ (v : Int), (((r1.1, v) : Int × Int) :: rest).Pairwise fun a b => a.1 ≤ b.1 := by
        intro v
        rw [List.pairwise_cons]
        exact ⟨fun b hb => hp1 b (List.mem_cons_of_mem r2 hb),
          (List.pairwise_cons.mp hp2).2⟩
      by_cases h2 : r1.2 < r2.2
      · rw [if_pos h2]
        exact ih (r1.1, r2.2) (hpnew r2.2)
      · rw [if_neg h2]
        have : (r1 :: rest).Pairwise fun a b => a.1 ≤ b.1 := by
          have := hpnew r1.2
          simpa using this
        exact ih r1 this

/-- If every input interval is valid (`start ≤ end`), so is every
interval emitted by the sweep. -/
theorem merge_loop_valid (l : List (Int × Int)) :
    ∀ (r1 : Int × Int), r1.1 ≤ r1.2 → (∀ p ∈ l, p.1 ≤ p.2) →
      ∀ q ∈ Bed.merge_loop r1 l, q.1 ≤ q.2 := by
  induction l with
  | nil =>
    intro r1 h1 _ q hq
    simp only [Bed.merge_loop, List.mem_singleton] at hq
    rw [hq]
    exact h1
  | cons r2 rest ih =>
    intro r1 h1 hl q hq
    simp only [Bed.merge_loop] at hq
    by_cases hc1 : r1.2 < r2.1
    · rw [if_pos hc1] at hq
      rcases List.mem_cons.mp hq with h | h
      · rw [h]; exact h1
      · exact ih r2 (hl r2 (List.mem_cons_self r2 rest))
          (fun p hp => hl p (List.mem_cons_of_mem r2 hp)) q h
    · rw [if_neg hc1] at hq
      by_cases hc2 : r1.2 < r2.2
      · rw [if_pos hc2] at hq
        exact ih (r1.1, r2.2) (le_trans h1 (le_of_lt hc2))
          (fun p hp => hl p (List.mem_cons_of_mem r2 hp)) q hq
      · rw [if_neg hc2] at hq
        exact ih r1 h1 (fun p hp => hl p (List.mem_cons_of_mem r2 hp)) q hq

/-- Coverage preservation of the sweep: the emitted intervals cover
exactly the candidate's positions plus the remaining input's positions
(the input being sorted by start). -/
theorem merge_loop_cov (l : List (Int × Int)) :
    ∀ (r1 : Int × Int), ((r1 :: l).Pairwise fun a b => a.1 ≤ b.1) →
      pairs_cov (Bed.merge_loop r1 l) = pair_cov r1 ∪ pairs_cov l := by
  induction l with
  | nil =>
    intro r1 _
    simp [Bed.merge_loop, pairs_cov]
  | cons r2 rest ih =>
    intro r1 hp
    have hp1 : ∀ b ∈ r2 :: rest, r1.1 ≤ b.1 := (List.pairwise_cons.mp hp).1
    have hp2 : (r2 :: rest).Pairwise fun a b => a.1 ≤ b.1 := (List.pairwise_cons.mp hp).2
    have h12 : r1.1 ≤ r2.1 := hp1 r2 (List.mem_cons_self r2 rest)
    have hpnew : ∀ (v : Int), (((r1.1, v) : Int × Int) :: rest).Pairwise fun a b => a.1 ≤ b.1 := by
      intro v
      rw [List.pairwise_cons]
      exact ⟨fun b hb => hp1 b (List.mem_cons_of_mem r2 hb),
        (List.pairwise_cons.mp hp2).2⟩
    simp only [Bed.merge_loop]
    by_cases h1 : r1.2 < r2.1
    · rw [if_pos h1]
      show pair_cov r1 ∪ pairs_cov (Bed.merge_loop r2 rest) = _
      rw [ih r2 hp2]
      rfl
    · rw [if_neg h1]
      by_cases h2 : r1.2 < r2.2
      · rw [if_pos h2]
        rw [ih (r1.1, r2.2) (hpnew r2.2)]
        have hmerge : pair_cov (r1.1, r2.2) = pair_cov r1 ∪ pair_cov r2 := by
          ext x
          simp only [pair_cov, Finset.mem_Icc, Finset.mem_union]
          omega
        show _ = pair_cov r1 ∪ (pair_cov r2 ∪ pairs_cov rest)
        rw [hmerge, Finset.union_assoc]
      · rw [if_neg h2]
        rw [ih r1 (by simpa using hpnew r1.2)]
        have habsorb : pair_cov r1 ∪ pair_cov r2 = pair_cov r1 := by
          rw [Finset.union_eq_left]
          refine Finset.Icc_subset_Icc h12 ?_
          omega
        show _ = pair_cov r1 ∪ (pair_cov r2 ∪ pairs_cov rest)
        rw [← Finset.union_assoc, habsorb]

/-! ### The consistency checks of `get_union_regions` -/

theorem dedup_eq_singleton_of_all_eq {α : Type} [DecidableEq α] :
    ∀ (l : List α) (a : α), l ≠ [] → (∀ x ∈ l, x = a) → l.dedup = [a] := by
  intro l
  induction l with
  | nil => intro a h _; exact absurd rfl h
  | cons x xs ih =>
    intro a _ h
    have hx : x = a := h x (List.mem_cons_self x xs)
    cases hxs : xs with
    | nil => rw [hx]; rfl
    | cons y ys =>
      rw [← hxs]
      have hne : xs ≠ [] := by rw [hxs]; exact List.cons_ne_nil y ys
      have hded : xs.dedup = [a] := ih a hne (fun z hz => h z (List.mem_cons_of_mem x hz))
      have hmem : x ∈ xs := by
        have hy : y ∈ xs := by rw [hxs]; exact List.mem_cons_self y ys
        have : y = a := h y (List.mem_cons_of_mem x hy)
        rw [hx, ← this]
        exact hy
      rw [List.dedup_cons_of_mem hmem, hded]

theorem all_eq_of_dedup_length_one {α : Type} [DecidableEq α] (l : List α)
    (h : l.dedup.length = 1) : ∃ a, ∀ x ∈ l, x = a := by
  obtain ⟨a, ha⟩ := List.length_eq_one.mp h
  refine ⟨a, fun x hx => ?_⟩
  have hmem : x ∈ l.dedup := List.mem_dedup.mpr hx
  rw [ha] at hmem
  simpa using hmem

theorem chrom_check_eq_one (r0 : Region) (rest : List Region) :
    ((r0 :: rest).map Region.chrom).dedup.length = 1 ↔
      ∀ r ∈ r0 :: rest, r.chrom = r0.chrom := by
  constructor
  · intro h r hr
    obtain ⟨a, ha⟩ := all_eq_of_dedup_length_one _ h
    have h1 : r.chrom = a := ha r.chrom (List.mem_map_of_mem Region.chrom hr)
    have h2 : r0.chrom = a :=
      ha r0.chrom (List.mem_map_of_mem Region.chrom (List.mem_cons_self r0 rest))
    rw [h1, h2]
  · intro h
    rw [dedup_eq_singleton_of_all_eq _ r0.chrom (by simp) ?_]
    · rfl
    · intro x hx
      obtain ⟨r, hr, hrx⟩ := List.mem_map.mp hx
      rw [← hrx]
      exact h r hr

theorem strand_check_eq_one (r0 : Region) (rest : List Region) :
    ((r0 :: rest).map Region.strand).dedup.length = 1 ↔
      ∀ r ∈ r0 :: rest, r.strand = r0.strand := by
  constructor
  · intro h r hr
    obtain ⟨a, ha⟩ := all_eq_of_dedup_length_one _ h
    have h1 : r.strand = a := ha r.strand (List.mem_map_of_mem Region.strand hr)
    have h2 : r0.strand = a :=
      ha r0.strand (List.mem_map_of_mem Region.strand (List.mem_cons_self r0 rest))
    rw [h1, h2]
  · intro h
    rw [dedup_eq_singleton_of_all_eq _ r0.strand (by simp) ?_]
    · rfl
    · intro x hx
      obtain ⟨r, hr, hrx⟩ := List.mem_map.mp hx
      rw [← hrx]
      exact h r hr

/-- When both consistency checks pass, `get_union_regions` sorts the
`(start, end)` pairs, sweeps them, and re-tags the result with the
shared chromosome and strand. -/
theorem get_union_shape (r0 : Region) (rest : List Region)
    (hc : ∀ r ∈ r0 :: rest, r.chrom = r0.chrom)
    (hs : ∀ r ∈ r0 :: rest, r.strand = r0.strand) :
    ∃ p0 prest,
      ((r0 :: rest).map fun r => (r.start, r.«end»)).insertionSort
          (fun a b => a.1 ≤ b.1) = p0 :: prest ∧
      Bed.get_union_regions (r0 :: rest) =
        .ok ((Bed.merge_loop p0 prest).map fun p =>
          { chrom := r0.chrom, start := p.1, «end» := p.2, strand := r0.strand }) := by
  have h1 : ((r0 :: rest).map Region.chrom).dedup.length = 1 :=
    (chrom_check_eq_one r0 rest).mpr hc
  have h2 : ((r0 :: rest).map Region.strand).dedup.length = 1 :=
    (strand_check_eq_one r0 rest).mpr hs
  have hperm := List.perm_insertionSort (fun a b : Int × Int => a.1 ≤ b.1)
    ((r0 :: rest).map fun r => (r.start, r.«end»))
  have hne : ((r0 :: rest).map fun r => (r.start, r.«end»)).insertionSort
      (fun a b => a.1 ≤ b.1) ≠ [] := by
    intro h
    have hlen := hperm.length_eq
    rw [h] at hlen
    simp at hlen
  obtain ⟨p0, prest, hsort⟩ := List.exists_cons_of_ne_nil hne
  refine ⟨p0, prest, hsort, ?_⟩
  simp only [Bed.get_union_regions, if_pos h1, if_pos h2]
  rw [hsort]

/-! ### Cardinality of covered positions -/

theorem pair_cov_card (p : Int × Int) (h : p.1 ≤ p.2) :
    ((pair_cov p).card : Int) = p.2 - p.1 + 1 := by
  rw [pair_cov, Int.card_Icc_of_le p.1 p.2 (by omega)]
  ring

/-- For pairwise-disjoint valid intervals, the number of covered
positions is exactly the sum of the interval lengths. -/
theorem pairs_cov_card_of_disjoint :
    ∀ (l : List (Int × Int)), (∀ p ∈ l, p.1 ≤ p.2) →
      (l.Pairwise fun a b => Disjoint (pair_cov a) (pair_cov b)) →
      ((pairs_cov l).card : Int) = (l.map fun p => p.2 - p.1 + 1).sum := by
  intro l
  induction l with
  | nil => intro _ _; simp [pairs_cov]
  | cons p rest ih =>
    intro hv hd
    have hd1 : ∀ q ∈ rest, Disjoint (pair_cov p) (pair_cov q) := (List.pairwise_cons.mp hd).1
    have hdisj : Disjoint (pair_cov p) (pairs_cov rest) := by
      rw [Finset.disjoint_left]
      intro x hx hmem
      obtain ⟨q, hq, hxq⟩ := (mem_pairs_cov x rest).mp hmem
      exact Finset.disjoint_left.mp (hd1 q hq) hx hxq
    show (((pair_cov p ∪ pairs_cov rest).card : Int)) = _
    rw [Finset.card_union_of_disjoint hdisj]
    push_cast
    rw [pair_cov_card p (hv p (List.mem_cons_self p rest)),
      ih (fun q hq => hv q (List.mem_cons_of_mem p hq)) (List.pairwise_cons.mp hd).2]
    simp

/-- For valid intervals in general, the number of covered positions is
at most the sum of the interval lengths. -/
theorem pairs_cov_card_le :
    ∀ (l : List (Int × Int)), (∀ p ∈ l, p.1 ≤ p.2) →
      ((pairs_cov l).card : Int) ≤ (l.map fun p => p.2 - p.1 + 1).sum := by
  intro l
  induction l with
  | nil => intro _; simp [pairs_cov]
  | cons p rest ih =>
    intro hv
    show (((pair_cov p ∪ pairs_cov rest).card : Int)) ≤ _
    have hle : ((pair_cov p ∪ pairs_cov rest).card : Int)
        ≤ ((pair_cov p).card : Int) + ((pairs_cov rest).card : Int) := by
      have := Finset.card_union_le (pair_cov p) (pairs_cov rest)
      exact_mod_cast this
    refine le_trans hle ?_
    rw [pair_cov_card p (hv p (List.mem_cons_self p rest))]
    have := ih (fun q hq => hv q (List.mem_cons_of_mem p hq))
    simp only [List.map_cons, List.sum_cons]
    omega

/-- Disjointness of the separated output intervals of the sweep. -/
theorem pairwise_disjoint_of_separated (l : List (Int × Int))
    (h : l.Pairwise fun a b => a.2 < b.1) :
    l.Pairwise fun a b => Disjoint (pair_cov a) (pair_cov b) := by
  refine h.imp ?_
  intro a b hab
  rw [Finset.disjoint_left]
  intro x hx hx2
  simp only [pair_cov, Finset.mem_Icc] at hx hx2
  omega

/-! ### Claims -/

/-- C5: in `get_union_regions`, two consecutive sorted intervals stay
separate exactly when the earlier end is strictly below the later start,
and otherwise merge with the end extended to the maximum of both ends;
concretely, `(a,5,10)` and `(a,10,15)` merge into `(a,5,15)`, while
`(a,5,10)` and `(a,11,15)` stay two intervals. -/
theorem merge_loop_step_and_examples :
    (∀ (r1 r2 : Int × Int) (rest : List (Int × Int)),
      Bed.merge_loop r1 (r2 :: rest) =
        if r1.2 < r2.1 then r1 :: Bed.merge_loop r2 rest
        else Bed.merge_loop (r1.1, max r1.2 r2.2) rest) ∧
    Bed.get_union_regions [⟨"a", 5, 10, "+"⟩, ⟨"a", 10, 15, "+"⟩]
      = .ok [⟨"a", 5, 15, "+"⟩] ∧
    Bed.get_union_regions [⟨"a", 5, 10, "+"⟩, ⟨"a", 11, 15, "+"⟩]
      = .ok [⟨"a", 5, 10, "+"⟩, ⟨"a", 11, 15, "+"⟩] := by
  refine ⟨?_, by decide, by decide⟩
  intro r1 r2 rest
  simp only [Bed.merge_loop]
  by_cases h1 : r1.2 < r2.1
  · rw [if_pos h1, if_pos h1]
  · rw [if_neg h1, if_neg h1]
    by_cases h2 : r1.2 < r2.2
    · rw [if_pos h2, max_eq_right (le_of_lt h2)]
    · rw [if_neg h2, max_eq_left (not_lt.mp h2), Prod.mk.eta]

/-- C2 (counterexample): for the worked example
`chr1|1,10,32|5,20,50|+` the produced block sizes are `[5, 11, 19]`
(`end - (start - 1)` per exon), not the `[4, 10, 18]` the claim
states. -/
theorem example_isoform_sizes_counterexample :
    (output_isoform_as_bed ⟨"chr1", [1, 10, 32], [5, 20, 50], "+"⟩
        "chr1|1,10,32|5,20,50|+").map Bed.block_sizes = .ok [5, 11, 19] ∧
    (output_isoform_as_bed ⟨"chr1", [1, 10, 32], [5, 20, 50], "+"⟩
        "chr1|1,10,32|5,20,50|+").map Bed.block_sizes ≠ .ok [4, 10, 18] := by
  exact ⟨by decide, by decide⟩

/-- C2 (amended): parsing `chr1|1,10,32|5,20,50|+` yields
starts `[1,10,32]`, ends `[5,20,50]`, and the record built for it has
`block_count = 3`, `start = 0`, `end = 50`, `block_sizes = [5,11,19]`
and `block_starts = [0,9,31]`. -/
theorem example_isoform_record_fields :
    parse_isoform_data "chr1|1,10,32|5,20,50|+".toList
      = .ok ⟨"chr1", [1, 10, 32], [5, 20, 50], "+"⟩ ∧
    output_isoform_as_bed ⟨"chr1", [1, 10, 32], [5, 20, 50], "+"⟩
        "chr1|1,10,32|5,20,50|+"
      = .ok ⟨"chr1", 0, 50, "+", "chr1|1,10,32|5,20,50|+", 3,
          [5, 11, 19], [0, 9, 31]⟩ := by
  exact ⟨by decide, by decide⟩

/-- C9: for every extracted sequence `S`, the extended output equals `S`
followed by the first `min(30, len(S))` characters of `S`, and its first
`len(S)` characters are `S` itself. -/
theorem extended_sequence_spec (s : List Char) :
    extend_sequence s = s ++ s.take (min 30 s.length) ∧
    (extend_sequence s).take s.length = s := by
  constructor
  · show s ++ s.take 30 = s ++ s.take (min 30 s.length)
    congr 1
    rw [← List.take_take, List.take_length]
  · show (s ++ s.take 30).take s.length = s
    exact List.take_left s (s.take 30)

/-! ### Master lemmas for the union path -/

theorem regions_pairwise_disjoint_of_separated (l : List Region)
    (h : l.Pairwise fun a b => a.«end» < b.start) :
    l.Pairwise fun a b => Disjoint (region_cov a) (region_cov b) := by
  refine h.imp ?_
  intro a b hab
  rw [Finset.disjoint_left]
  intro x hx hx2
  simp only [region_cov, Finset.mem_Icc] at hx hx2
  omega

theorem regions_cov_card_of_disjoint (l : List Region)
    (hv : ∀ r ∈ l, r.start ≤ r.«end»)
    (hd : l.Pairwise fun a b => Disjoint (region_cov a) (region_cov b)) :
    ((regions_cov l).card : Int) = (l.map region_size).sum := by
  rw [regions_cov_eq_pairs_cov]
  have hv' : ∀ p ∈ l.map fun r => (r.start, r.«end»), p.1 ≤ p.2 := by
    intro p hp
    obtain ⟨r, hr, hrp⟩ := List.mem_map.mp hp
    rw [← hrp]
    exact hv r hr
  have hd' : (l.map fun r => (r.start, r.«end»)).Pairwise
      fun a b => Disjoint (pair_cov a) (pair_cov b) := by
    rw [List.pairwise_map]
    exact hd
  rw [pairs_cov_card_of_disjoint _ hv' hd', List.map_map]
  refine congrArg List.sum (List.map_congr_left ?_)
  intro r _
  simp only [Function.comp_apply, region_size]
  ring

theorem regions_cov_card_le (l : List Region)
    (hv : ∀ r ∈ l, r.start ≤ r.«end») :
    ((regions_cov l).card : Int) ≤ (l.map region_size).sum := by
  rw [regions_cov_eq_pairs_cov]
  have hv' : ∀ p ∈ l.map fun r => (r.start, r.«end»), p.1 ≤ p.2 := by
    intro p hp
    obtain ⟨r, hr, hrp⟩ := List.mem_map.mp hp
    rw [← hrp]
    exact hv r hr
  refine le_trans (pairs_cov_card_le _ hv') (le_of_eq ?_)
  rw [List.map_map]
  refine congrArg List.sum (List.map_congr_left ?_)
  intro r _
  simp only [Function.comp_apply, region_size]
  ring

/-- Everything `get_union_regions` guarantees on a consistent, valid,
non-empty input: success, non-empty strictly separated valid output,
exact coverage, and the shared tags. -/
theorem get_union_master (r0 : Region) (rest : List Region)
    (hv : ∀ r ∈ r0 :: rest, r.start ≤ r.«end»)
    (hc : ∀ r ∈ r0 :: rest, r.chrom = r0.chrom)
    (hs : ∀ r ∈ r0 :: rest, r.strand = r0.strand) :
    ∃ out, Bed.get_union_regions (r0 :: rest) = .ok out ∧
      out ≠ [] ∧
      (out.Pairwise fun a b => a.«end» < b.start) ∧
      (∀ q ∈ out, q.start ≤ q.«end») ∧
      regions_cov out = regions_cov (r0 :: rest) ∧
      (∀ x ∈ out, x.chrom = r0.chrom ∧ x.strand = r0.strand) := by
  obtain ⟨p0, prest, hsort, hok⟩ := get_union_shape r0 rest hc hs
  have hperm : (p0 :: prest).Perm ((r0 :: rest).map fun r => (r.start, r.«end»)) := by
    rw [← hsort]
    exact List.perm_insertionSort _ _
  have hsorted : (p0 :: prest).Pairwise fun a b => a.1 ≤ b.1 := by
    have h := List.sorted_insertionSort (fun a b : Int × Int => a.1 ≤ b.1)
      ((r0 :: rest).map fun r => (r.start, r.«end»))
    rw [hsort] at h
    exact h
  have hvalid_pairs : ∀ p ∈ (r0 :: rest).map fun r => (r.start, r.«end»), p.1 ≤ p.2 := by
    intro p hp
    obtain ⟨r, hr, hrp⟩ := List.mem_map.mp hp
    rw [← hrp]
    exact hv r hr
  have hvalid_sorted : ∀ p ∈ p0 :: prest, p.1 ≤ p.2 :=
    fun p hp => hvalid_pairs p (hperm.subset hp)
  have hpw : (Bed.merge_loop p0 prest).Pairwise fun a b => a.2 < b.1 :=
    merge_loop_pairwise prest p0 hsorted
  have hUvalid : ∀ q ∈ Bed.merge_loop p0 prest, q.1 ≤ q.2 :=
    merge_loop_valid prest p0 (hvalid_sorted p0 (List.mem_cons_self p0 prest))
      (fun p hp => hvalid_sorted p (List.mem_cons_of_mem p0 hp))
  refine ⟨_, hok, ?_, ?_, ?_, ?_, ?_⟩
  · intro h
    exact merge_loop_ne_nil prest p0 (List.map_eq_nil_iff.mp h)
  · rw [List.pairwise_map]
    exact hpw
  · intro q hq
    obtain ⟨p, hp, hpq⟩ := List.mem_map.mp hq
    rw [← hpq]
    exact hUvalid p hp
  · have h1 : regions_cov ((Bed.merge_loop p0 prest).map fun p =>
        ({ chrom := r0.chrom, start := p.1, «end» := p.2, strand := r0.strand } : Region))
        = pairs_cov (Bed.merge_loop p0 prest) := by
      rw [regions_cov_eq_pairs_cov, List.map_map]
      refine congrArg pairs_cov ?_
      have : ((fun r : Region => (r.start, r.«end»)) ∘ fun p : Int × Int =>
          ({ chrom := r0.chrom, start := p.1, «end» := p.2, strand := r0.strand } : Region))
          = fun p : Int × Int => (p.1, p.2) := rfl
      rw [this]
      simp
    rw [h1, merge_loop_cov prest p0 hsorted]
    show pairs_cov (p0 :: prest) = _
    rw [pairs_cov_perm _ _ hperm, ← regions_cov_eq_pairs_cov]
  · intro x hx
    obtain ⟨p, _, hpx⟩ := List.mem_map.mp hx
    rw [← hpx]
    exact ⟨rfl, rfl⟩

/-- Running `Bed.__init__` with `union=True` on a successful union result is the
fold over the merged regions. -/
theorem init_union_ok (regions : List Region) (name : String)
    (q0 : Region) (qrest : List Region)
    (hregs : Bed.get_union_regions regions = .ok (q0 :: qrest))
    (hstrand : ∀ x ∈ qrest, x.strand = q0.strand) :
    Bed.init regions name true = .ok (bed_closed name q0 qrest) := by
  have h : Bed.init regions name true
      = Bed.get_union_regions regions >>= fun regs => Bed.parse_regions name regs := rfl
  rw [h, hregs]
  have hbind : (Except.ok (q0 :: qrest) : Except PyErr (List Region)) >>=
      (fun regs => Bed.parse_regions name regs) = Bed.parse_regions name (q0 :: qrest) := rfl
  rw [hbind, parse_regions_eq name q0 qrest hstrand]

/-- The record produced by `output_isoform_as_bed` for a valid non-empty
isoform: it is the union-path record, its block data comes from the
merged regions, and the merged regions are separated and cover exactly
the exon positions. -/
theorem output_bed_master (iso : Isoform) (name : String)
    (h1 : iso.starts.length = iso.ends.length)
    (h2 : ∀ p ∈ iso.starts.zip iso.ends, p.1 ≤ p.2)
    (h3 : iso.starts ≠ []) :
    ∃ regs b,
      Bed.get_union_regions (iso_regions iso) = .ok regs ∧
      output_isoform_as_bed iso name = Bed.init (iso_regions iso) name true ∧
      output_isoform_as_bed iso name = .ok b ∧
      b.block_count = regs.length ∧
      b.block_sizes = regs.map region_size ∧
      (∀ q ∈ regs, q.start ≤ q.«end») ∧
      (regs.Pairwise fun a b => a.«end» < b.start) ∧
      regions_cov regs = regions_cov (iso_regions iso) := by
  obtain ⟨s, ss, hstarts⟩ := List.exists_cons_of_ne_nil h3
  have hends_ne : iso.ends ≠ [] := by
    intro h
    rw [hstarts, h] at h1
    simp at h1
  obtain ⟨e, es, hends⟩ := List.exists_cons_of_ne_nil hends_ne
  have hregions : iso_regions iso =
      ({ chrom := iso.chr_, start := s, «end» := e, strand := iso.strand } : Region)
        :: (ss.zip es).map fun p =>
          ({ chrom := iso.chr_, start := p.1, «end» := p.2, strand := iso.strand } : Region) := by
    rw [iso_regions, hstarts, hends]
    rfl
  have hv : ∀ r ∈ iso_regions iso, r.start ≤ r.«end» := by
    intro r hr
    obtain ⟨p, hp, hpr⟩ := List.mem_map.mp hr
    rw [← hpr]
    exact h2 p hp
  have hchrom : ∀ r ∈ iso_regions iso, r.chrom = iso.chr_ := by
    intro r hr
    obtain ⟨p, _, hpr⟩ := List.mem_map.mp hr
    rw [← hpr]
  have hstrand : ∀ r ∈ iso_regions iso, r.strand = iso.strand := by
    intro r hr
    obtain ⟨p, _, hpr⟩ := List.mem_map.mp hr
    rw [← hpr]
  have hmaster := get_union_master
    ({ chrom := iso.chr_, start := s, «end» := e, strand := iso.strand } : Region)
    ((ss.zip es).map fun p =>
      ({ chrom := iso.chr_, start := p.1, «end» := p.2, strand := iso.strand } : Region))
    (by rw [← hregions]; exact hv)
    (by rw [← hregions]; exact hchrom)
    (by rw [← hregions]; exact hstrand)
  rw [← hregions] at hmaster
  obtain ⟨out, hok, hne, hsep, hval, hcov, htags⟩ := hmaster
  obtain ⟨q0, qrest, hout⟩ := List.exists_cons_of_ne_nil hne
  have hq0 : q0 ∈ out := by rw [hout]; exact List.mem_cons_self q0 qrest
  have hq0str : q0.strand = iso.strand := by
    have := htags q0 hq0
    exact this.2
  have hallstr : ∀ x ∈ qrest, x.strand = q0.strand := by
    intro x hx
    have hmem : x ∈ out := by rw [hout]; exact List.mem_cons_of_mem q0 hx
    rw [(htags x hmem).2, hq0str]
  have hok' : Bed.get_union_regions (iso_regions iso) = .ok (q0 :: qrest) := by
    rw [hok, hout]
  have hinit := init_union_ok (iso_regions iso) name q0 qrest hok' hallstr
  have houtput : output_isoform_as_bed iso name = Bed.init (iso_regions iso) name true := by
    rw [output_isoform_as_bed, if_pos h1, if_pos h2]
  refine ⟨q0 :: qrest, bed_closed name q0 qrest, hok', houtput, ?_, ?_, ?_, ?_, ?_, ?_⟩
  · rw [houtput, hinit]
  · simp [bed_closed]
  · simp [bed_closed]
  · rw [← hout]
    exact hval
  · rw [← hout]
    exact hsep
  · rw [← hout]
    exact hcov

theorem parse_regions_ne_indexError (name : String) (l : List Region)
    (h : l ≠ []) : Bed.parse_regions name l ≠ .error .indexError := by
  cases l with
  | nil => exact absurd rfl h
  | cons r rest => exact foldlM_ne_indexError rest (Bed.parse_region name r)

/-- C3: on a non-empty input, `get_union_regions` fails with the
chromosome-consistency assertion when not all chromosomes agree, fails
with the strand-consistency assertion when the chromosomes agree but
the strands do not, and raises no such error when both agree. -/
theorem get_union_regions_consistency (r0 : Region) (rest : List Region) :
    (¬ (∀ r ∈ r0 :: rest, r.chrom = r0.chrom) →
      Bed.get_union_regions (r0 :: rest)
        = .error (.assertionError (some "Not all regions in the same chromosome!"))) ∧
    ((∀ r ∈ r0 :: rest, r.chrom = r0.chrom) →
      ¬ (∀ r ∈ r0 :: rest, r.strand = r0.strand) →
      Bed.get_union_regions (r0 :: rest)
        = .error (.assertionError (some "Not all regions at the same strand!"))) ∧
    ((∀ r ∈ r0 :: rest, r.chrom = r0.chrom) →
      (∀ r ∈ r0 :: rest, r.strand = r0.strand) →
      ∃ out, Bed.get_union_regions (r0 :: rest) = .ok out) := by
  refine ⟨?_, ?_, ?_⟩
  · intro h
    have h1 : ¬ ((r0 :: rest).map Region.chrom).dedup.length = 1 :=
      fun hc => h ((chrom_check_eq_one r0 rest).mp hc)
    simp only [Bed.get_union_regions, if_neg h1]
  · intro hc hs
    have h1 : ((r0 :: rest).map Region.chrom).dedup.length = 1 :=
      (chrom_check_eq_one r0 rest).mpr hc
    have h2 : ¬ ((r0 :: rest).map Region.strand).dedup.length = 1 :=
      fun hsd => hs ((strand_check_eq_one r0 rest).mp hsd)
    simp only [Bed.get_union_regions, if_pos h1, if_neg h2]
  · intro hc hs
    obtain ⟨p0, prest, _, hok⟩ := get_union_shape r0 rest hc hs
    exact ⟨_, hok⟩

theorem get_union_regions_consistency_witness :
    Bed.get_union_regions [⟨"chr1", 1, 5, "+"⟩, ⟨"chr2", 1, 5, "+"⟩]
      = .error (.assertionError (some "Not all regions in the same chromosome!")) ∧
    Bed.get_union_regions [⟨"chr1", 1, 5, "+"⟩, ⟨"chr1", 1, 5, "-"⟩]
      = .error (.assertionError (some "Not all regions at the same strand!")) ∧
    ∃ out, Bed.get_union_regions [⟨"chr1", 1, 5, "+"⟩, ⟨"chr1", 3, 7, "+"⟩] = .ok out :=
  ⟨(get_union_regions_consistency ⟨"chr1", 1, 5, "+"⟩ [⟨"chr2", 1, 5, "+"⟩]).1
      (by decide),
    (get_union_regions_consistency ⟨"chr1", 1, 5, "+"⟩ [⟨"chr1", 1, 5, "-"⟩]).2.1
      (by decide) (by decide),
    (get_union_regions_consistency ⟨"chr1", 1, 5, "+"⟩ [⟨"chr1", 3, 7, "+"⟩]).2.2
      (by decide) (by decide)⟩

/-- C10: constructing a `Bed` from an empty region list fails on both
paths (`IndexError` from `regions[0][3]` on the raw path, the
chromosome assertion on the union path, whose own `regions[0]` read is
then never reached), and on any non-empty region list the
out-of-bounds `IndexError` is unreachable on both paths. -/
theorem bed_init_empty_fails_nonempty_safe :
    (∀ name, Bed.init [] name false = .error .indexError) ∧
    (∀ name, Bed.init [] name true
      = .error (.assertionError (some "Not all regions in the same chromosome!"))) ∧
    (∀ (regions : List Region) (name : String) (union : Bool),
      regions ≠ [] → Bed.init regions name union ≠ .error .indexError) := by
  refine ⟨fun name => rfl, fun name => rfl, ?_⟩
  intro regions name union hne
  obtain ⟨r0, rest, hcons⟩ := List.exists_cons_of_ne_nil hne
  subst hcons
  cases union with
  | false =>
    have h : Bed.init (r0 :: rest) name false =
        Bed.parse_regions name (if r0.strand = "-" then (r0 :: rest).reverse else r0 :: rest) :=
      rfl
    rw [h]
    refine parse_regions_ne_indexError name _ ?_
    by_cases hm : r0.strand = "-"
    · rw [if_pos hm]
      simp
    · rw [if_neg hm]
      simp
  | true =>
    have h : Bed.init (r0 :: rest) name true =
        Bed.get_union_regions (r0 :: rest) >>= fun regs => Bed.parse_regions name regs :=
      rfl
    rw [h]
    by_cases h1 : ((r0 :: rest).map Region.chrom).dedup.length = 1
    · by_cases h2 : ((r0 :: rest).map Region.strand).dedup.length = 1
      · obtain ⟨p0, prest, _, hok⟩ := get_union_shape r0 rest
          ((chrom_check_eq_one r0 rest).mp h1) ((strand_check_eq_one r0 rest).mp h2)
        rw [hok]
        have hbind : (Except.ok ((Bed.merge_loop p0 prest).map fun p =>
            ({ chrom := r0.chrom, start := p.1, «end» := p.2, strand := r0.strand } : Region))
              : Except PyErr (List Region)) >>= (fun regs => Bed.parse_regions name regs)
            = Bed.parse_regions name ((Bed.merge_loop p0 prest).map fun p =>
              ({ chrom := r0.chrom, start := p.1, «end» := p.2, strand := r0.strand } : Region)) := rfl
        rw [hbind]
        refine parse_regions_ne_indexError name _ ?_
        intro hmapnil
        exact merge_loop_ne_nil prest p0 (List.map_eq_nil_iff.mp hmapnil)
      · have herr : Bed.get_union_regions (r0 :: rest)
            = .error (.assertionError (some "Not all regions at the same strand!")) := by
          simp only [Bed.get_union_regions, if_pos h1, if_neg h2]
        rw [herr]
        intro hcontra
        cases hcontra
    · have herr : Bed.get_union_regions (r0 :: rest)
          = .error (.assertionError (some "Not all regions in the same chromosome!")) := by
        simp only [Bed.get_union_regions, if_neg h1]
      rw [herr]
      intro hcontra
      cases hcontra

theorem bed_init_empty_fails_witness :
    Bed.init [⟨"c", 1, 5, "+"⟩] "n" true ≠ .error .indexError :=
  bed_init_empty_fails_nonempty_safe.2.2 [⟨"c", 1, 5, "+"⟩] "n" true (by decide)

/-- C4: on a non-empty, valid, single-chromosome single-strand input,
`get_union_regions` succeeds with an output that is strictly sorted by
start, pairwise disjoint in covered positions, covers exactly the same
genomic positions as the input, and is tagged throughout with the
shared chromosome and strand. -/
theorem get_union_regions_sorted_disjoint_covering (r0 : Region) (rest : List Region)
    (hv : ∀ r ∈ r0 :: rest, r.start ≤ r.«end»)
    (hc : ∀ r ∈ r0 :: rest, r.chrom = r0.chrom)
    (hs : ∀ r ∈ r0 :: rest, r.strand = r0.strand) :
    ∃ out, Bed.get_union_regions (r0 :: rest) = .ok out ∧
      (out.Pairwise fun a b => a.start < b.start) ∧
      (out.Pairwise fun a b => Disjoint (region_cov a) (region_cov b)) ∧
      regions_cov out = regions_cov (r0 :: rest) ∧
      (∀ x ∈ out, x.chrom = r0.chrom ∧ x.strand = r0.strand) := by
  obtain ⟨out, hok, _, hsep, hval, hcov, htags⟩ := get_union_master r0 rest hv hc hs
  refine ⟨out, hok, ?_, regions_pairwise_disjoint_of_separated out hsep, hcov, htags⟩
  refine hsep.imp_of_mem ?_
  intro a b ha _ hab
  exact lt_of_le_of_lt (hval a ha) hab

theorem get_union_regions_sorted_witness :
    ∃ out, Bed.get_union_regions [⟨"chr1", 1, 5, "+"⟩, ⟨"chr1", 3, 7, "+"⟩] = .ok out ∧
      (out.Pairwise fun a b => a.start < b.start) ∧
      (out.Pairwise fun a b => Disjoint (region_cov a) (region_cov b)) ∧
      regions_cov out = regions_cov [⟨"chr1", 1, 5, "+"⟩, ⟨"chr1", 3, 7, "+"⟩] ∧
      (∀ x ∈ out, x.chrom = "chr1" ∧ x.strand = "+") :=
  get_union_regions_sorted_disjoint_covering ⟨"chr1", 1, 5, "+"⟩ [⟨"chr1", 3, 7, "+"⟩]
    (by decide) (by decide) (by decide)

/-- C7: on the raw (non-union) path, a non-empty region list is
reversed before block-building exactly when the first region's strand
is `-` (the resulting `Bed` is the one built, without reversal, from
the reversed list), is left in order otherwise, and the resulting
record reports the first region's strand. -/
theorem raw_path_strand_reversal (r0 : Region) (rest : List Region) (name : String)
    (hs : ∀ r ∈ r0 :: rest, r.strand = r0.strand) :
    Bed.init (r0 :: rest) name false =
      Bed.parse_regions name
        (if r0.strand = "-" then (r0 :: rest).reverse else r0 :: rest) ∧
    ∃ b, Bed.init (r0 :: rest) name false = .ok b ∧ b.strand = r0.strand := by
  have h1 : Bed.init (r0 :: rest) name false =
      Bed.parse_regions name
        (if r0.strand = "-" then (r0 :: rest).reverse else r0 :: rest) := rfl
  refine ⟨h1, ?_⟩
  rw [h1]
  by_cases hminus : r0.strand = "-"
  · rw [if_pos hminus]
    obtain ⟨y, ys, hys⟩ := List.exists_cons_of_ne_nil
      (show (r0 :: rest).reverse ≠ [] by simp)
    have hymem : y ∈ r0 :: rest := by
      rw [← List.mem_reverse, hys]
      exact List.mem_cons_self y ys
    have hystr : y.strand = r0.strand := hs y hymem
    have hall : ∀ x ∈ ys, x.strand = y.strand := by
      intro x hx
      have hxmem : x ∈ r0 :: rest := by
        rw [← List.mem_reverse, hys]
        exact List.mem_cons_of_mem y hx
      rw [hs x hxmem, hystr]
    rw [hys, parse_regions_eq name y ys hall]
    refine ⟨bed_closed name y ys, rfl, ?_⟩
    show y.strand = r0.strand
    exact hystr
  · rw [if_neg hminus,
      parse_regions_eq name r0 rest (fun x hx => hs x (List.mem_cons_of_mem r0 hx))]
    exact ⟨bed_closed name r0 rest, rfl, rfl⟩

theorem raw_path_strand_reversal_witness :
    ∃ b, Bed.init [⟨"c", 10, 20, "-"⟩, ⟨"c", 1, 5, "-"⟩] "n" false = .ok b ∧
      b.strand = (⟨"c", 10, 20, "-"⟩ : Region).strand :=
  (raw_path_strand_reversal ⟨"c", 10, 20, "-"⟩ [⟨"c", 1, 5, "-"⟩] "n" (by decide)).2

/-- C6: every successfully built block fold over a non-empty valid
region list, in whatever order the regions arrive, satisfies the
record invariants: matching block counts and list lengths, envelope
start equal to the minimum 0-based start, envelope end equal to the
maximum end, `start ≤ end`, and every block fitting inside the
envelope. -/
theorem parse_regions_envelope (r0 : Region) (rest : List Region) (name : String)
    (b : Bed) (hb : Bed.parse_regions name (r0 :: rest) = .ok b)
    (hv : ∀ r ∈ r0 :: rest, r.start ≤ r.«end») :
    b.block_count = b.block_sizes.length ∧
    b.block_count = b.block_starts.length ∧
    (∀ r ∈ r0 :: rest, b.start ≤ r.start - 1) ∧
    (∃ r ∈ r0 :: rest, b.start = r.start - 1) ∧
    (∀ r ∈ r0 :: rest, r.«end» ≤ b.«end») ∧
    (∃ r ∈ r0 :: rest, b.«end» = r.«end») ∧
    b.start ≤ b.«end» ∧
    (∀ (i : Nat) (hi1 : i < b.block_starts.length) (hi2 : i < b.block_sizes.length),
      b.block_starts.get ⟨i, hi1⟩ + b.block_sizes.get ⟨i, hi2⟩ ≤ b.«end» - b.start) := by
  have hb' : rest.foldlM Bed.add_block (Bed.parse_region name r0) = .ok b := hb
  have hstr : ∀ x ∈ rest, x.strand = r0.strand :=
    (foldlM_ok_strand rest (Bed.parse_region name r0) b hb').1
  have hbc : b = bed_closed name r0 rest := by
    have h2 := parse_regions_eq name r0 rest hstr
    rw [hb] at h2
    exact Except.ok.inj h2
  subst hbc
  have hminle : ∀ r ∈ r0 :: rest, env_start r0 rest ≤ abs_start r := by
    intro r hr
    rcases List.mem_cons.mp hr with h | h
    · rw [h]
      exact foldl_min_le_init abs_start rest (abs_start r0)
    · exact foldl_min_le_mem abs_start rest (abs_start r0) r h
  have hmaxle : ∀ r ∈ r0 :: rest, r.«end» ≤ env_end r0 rest := by
    intro r hr
    rcases List.mem_cons.mp hr with h | h
    · rw [h]
      exact foldl_max_init_le (fun r => r.«end») rest r0.«end»
    · exact foldl_max_mem_le (fun r => r.«end») rest r0.«end» r h
  refine ⟨by simp [bed_closed], by simp [bed_closed], hminle, ?_, hmaxle, ?_, ?_, ?_⟩
  · rcases foldl_min_eq_init_or_mem abs_start rest (abs_start r0) with h | ⟨x, hx, h⟩
    · exact ⟨r0, List.mem_cons_self r0 rest, h⟩
    · exact ⟨x, List.mem_cons_of_mem r0 hx, h⟩
  · rcases foldl_max_eq_init_or_mem (fun r => r.«end») rest r0.«end» with h | ⟨x, hx, h⟩
    · exact ⟨r0, List.mem_cons_self r0 rest, h⟩
    · exact ⟨x, List.mem_cons_of_mem r0 hx, h⟩
  · show env_start r0 rest ≤ env_end r0 rest
    have a1 := hminle r0 (List.mem_cons_self r0 rest)
    have a2 := hmaxle r0 (List.mem_cons_self r0 rest)
    have a3 := hv r0 (List.mem_cons_self r0 rest)
    simp only [abs_start] at a1
    omega
  · intro i hi1 hi2
    have hlen : i < (r0 :: rest).length := by
      simpa [bed_closed] using hi2
    have e1 : (bed_closed name r0 rest).block_starts.get ⟨i, hi1⟩
        = abs_start ((r0 :: rest).get ⟨i, hlen⟩) - env_start r0 rest := by
      show (((r0 :: rest).map fun r => abs_start r - env_start r0 rest).get ⟨i, hi1⟩) = _
      simp only [List.get_eq_getElem, List.getElem_map]
    have e2 : (bed_closed name r0 rest).block_sizes.get ⟨i, hi2⟩
        = region_size ((r0 :: rest).get ⟨i, hlen⟩) := by
      show (((r0 :: rest).map region_size).get ⟨i, hi2⟩) = _
      simp only [List.get_eq_getElem, List.getElem_map]
    rw [e1, e2]
    have hmem : (r0 :: rest).get ⟨i, hlen⟩ ∈ r0 :: rest := List.get_mem _ _ _
    have hend := hmaxle _ hmem
    show _ ≤ env_end r0 rest - env_start r0 rest
    simp only [abs_start, region_size]
    omega

theorem parse_regions_envelope_witness :
    (⟨"c", 0, 20, "+", "n", 2, [5, 11], [0, 9]⟩ : Bed).block_count
      = (⟨"c", 0, 20, "+", "n", 2, [5, 11], [0, 9]⟩ : Bed).block_sizes.length ∧
    (⟨"c", 0, 20, "+", "n", 2, [5, 11], [0, 9]⟩ : Bed).start
      ≤ (⟨"c", 0, 20, "+", "n", 2, [5, 11], [0, 9]⟩ : Bed).«end» :=
  ⟨(parse_regions_envelope ⟨"c", 1, 5, "+"⟩ [⟨"c", 10, 20, "+"⟩] "n"
      ⟨"c", 0, 20, "+", "n", 2, [5, 11], [0, 9]⟩ (by decide) (by decide)).1,
    (parse_regions_envelope ⟨"c", 1, 5, "+"⟩ [⟨"c", 10, 20, "+"⟩] "n"
      ⟨"c", 0, 20, "+", "n", 2, [5, 11], [0, 9]⟩ (by decide) (by decide)).2.2.2.2.2.2.1⟩

/-- C1 (counterexample): the valid isoform with starts `[1,3]`, ends
`[5,7]` on `+` has 2 exons, but the record emitted to `isoforms.bed`
has `block_count = 1`: `output_isoform_as_bed` builds the union-path
record (its overlapping exons merge), not the raw per-exon record,
which would have 2 blocks. -/
theorem bed_output_not_raw_counterexample :
    (output_isoform_as_bed ⟨"chr1", [1, 3], [5, 7], "+"⟩ "n").map Bed.block_count
      = .ok 1 ∧
    (⟨"chr1", [1, 3], [5, 7], "+"⟩ : Isoform).starts.length = 2 ∧
    Bed.init (iso_regions ⟨"chr1", [1, 3], [5, 7], "+"⟩) "n" false
      = .ok ⟨"chr1", 0, 7, "+", "n", 2, [5, 5], [0, 2]⟩ :=
  ⟨by decide, by decide, by decide⟩

/-- C1 (amended): for every valid non-empty isoform, the record written
to `isoforms.bed` is the union-path BlockRecord —
`Bed(regions, union=True)` built from the IntervalUnion of the exon
intervals — so its block count equals the number of merged union
intervals. -/
theorem bed_output_is_union_record (iso : Isoform) (name : String)
    (h1 : iso.starts.length = iso.ends.length)
    (h2 : ∀ p ∈ iso.starts.zip iso.ends, p.1 ≤ p.2)
    (h3 : iso.starts ≠ []) :
    output_isoform_as_bed iso name = Bed.init (iso_regions iso) name true ∧
    ∃ regs b, Bed.get_union_regions (iso_regions iso) = .ok regs ∧
      output_isoform_as_bed iso name = .ok b ∧
      b.block_count = regs.length := by
  obtain ⟨regs, b, hok, hunion, hbout, hcount, _⟩ := output_bed_master iso name h1 h2 h3
  exact ⟨hunion, regs, b, hok, hbout, hcount⟩

theorem bed_output_is_union_record_witness :
    output_isoform_as_bed ⟨"chr1", [1, 3], [5, 7], "+"⟩ "n"
      = Bed.init (iso_regions ⟨"chr1", [1, 3], [5, 7], "+"⟩) "n" true ∧
    ∃ regs b,
      Bed.get_union_regions (iso_regions ⟨"chr1", [1, 3], [5, 7], "+"⟩) = .ok regs ∧
      output_isoform_as_bed ⟨"chr1", [1, 3], [5, 7], "+"⟩ "n" = .ok b ∧
      b.block_count = regs.length :=
  bed_output_is_union_record ⟨"chr1", [1, 3], [5, 7], "+"⟩ "n"
    (by decide) (by decide) (by decide)

/-- C8: for every valid non-empty isoform, the value written to the
length file is the sum of the union-built record's block sizes, which
is at most the sum of the raw per-exon sizes, with equality whenever no
two exons overlap in covered positions. -/
theorem total_length_union_le_raw (iso : Isoform) (name : String)
    (h1 : iso.starts.length = iso.ends.length)
    (h2 : ∀ p ∈ iso.starts.zip iso.ends, p.1 ≤ p.2)
    (h3 : iso.starts ≠ []) :
    ∃ b, output_isoform_as_bed iso name = .ok b ∧
      isoform_total_length iso name = .ok b.block_sizes.sum ∧
      b.block_sizes.sum ≤ ((iso_regions iso).map region_size).sum ∧
      ((iso_regions iso).Pairwise (fun a b => Disjoint (region_cov a) (region_cov b)) →
        b.block_sizes.sum = ((iso_regions iso).map region_size).sum) := by
  obtain ⟨regs, b, hok, hunion, hbout, hcount, hsizes, hval, hsep, hcov⟩ :=
    output_bed_master iso name h1 h2 h3
  have htotal : isoform_total_length iso name = .ok b.block_sizes.sum := by
    rw [isoform_total_length, hbout]
    rfl
  have hvregions : ∀ r ∈ iso_regions iso, r.start ≤ r.«end» := by
    intro r hr
    obtain ⟨p, hp, hpr⟩ := List.mem_map.mp hr
    rw [← hpr]
    exact h2 p hp
  have hdisj := regions_pairwise_disjoint_of_separated regs hsep
  have hcard : ((regions_cov regs).card : Int) = (regs.map region_size).sum :=
    regions_cov_card_of_disjoint regs hval hdisj
  have hsum : b.block_sizes.sum = ((regions_cov (iso_regions iso)).card : Int) := by
    rw [hsizes, ← hcard, hcov]
  refine ⟨b, hbout, htotal, ?_, ?_⟩
  · rw [hsum]
    exact regions_cov_card_le (iso_regions iso) hvregions
  · intro hd
    rw [hsum]
    exact regions_cov_card_of_disjoint (iso_regions iso) hvregions hd

theorem total_length_union_le_raw_witness :
    ∃ b, output_isoform_as_bed ⟨"chr1", [1, 3], [5, 7], "+"⟩ "n" = .ok b ∧
      isoform_total_length ⟨"chr1", [1, 3], [5, 7], "+"⟩ "n" = .ok b.block_sizes.sum ∧
      b.block_sizes.sum
        ≤ ((iso_regions ⟨"chr1", [1, 3], [5, 7], "+"⟩).map region_size).sum ∧
      ((iso_regions ⟨"chr1", [1, 3], [5, 7], "+"⟩).Pairwise
          (fun a b => Disjoint (region_cov a) (region_cov b)) →
        b.block_sizes.sum
          = ((iso_regions ⟨"chr1", [1, 3], [5, 7], "+"⟩).map region_size).sum) :=
  total_length_union_le_raw ⟨"chr1", [1, 3], [5, 7], "+"⟩ "n"
    (by decide) (by decide) (by decide)
